import Mathlib

/-!
# SeaweedFS filer store on FoundationDB: a shallow embedding

The Go package `weed/filer/foundationdb` keeps filer entries in an ordered
key-value engine, the key being the raw bytes of the entry's full path.  This
file embeds the store's operations as Lean functions over an explicit database
value and proves properties of them.

Conventions of the embedding:

* a Go `string` / `[]byte` is a list of bytes, a byte is a `Fin 256`;
* a `[]byte` that may be `nil` is an `Option Bytes` (`none` is `nil`);
* a Go `(value, error)` pair is a Lean pair whose second component is an
  `Option Error` (`none` is the `nil` error);
* a function that can panic returns a `GoResult`;
* the engine's behaviour for one transaction (success or failure) is an
  explicit argument `fault` of every operation;
* the callback of a listing is state passing: it receives its own state and the
  entry, and returns the new state and the continuation flag.
-/

set_option linter.unusedVariables false

namespace FdbStore


/-! ## Bytes and the order of the key space -/

/-- One byte. -/
abbrev Byte := Fin 256

/-- A Go string or byte slice. -/
abbrev Bytes := List Byte

/-- The order of the engine's key space, `bytes.Compare a b < 0`: unsigned
lexicographic comparison, a proper initial segment sorts first. -/
def keyLt : Bytes → Bytes → Bool
  | [], [] => false
  | [], _ :: _ => true
  | _ :: _, [] => false
  | a :: as, b :: bs => if a < b then true else if b < a then false else keyLt as bs

/-- Non-strict comparison, `bytes.Compare a b <= 0`. -/
def keyLe (a b : Bytes) : Bool := !keyLt b a

/-- A key range of the engine, `fdb.KeyRange`: `Begin` inclusive, `End` exclusive. -/
structure KeyRange where
  Begin : Bytes
  End : Bytes
deriving DecidableEq, Repr

/-- Membership of a key in the half-open range `[Begin, End)`. -/
def KeyRange.contains (r : KeyRange) (k : Bytes) : Bool := keyLe r.Begin k && keyLt k r.End

/-! ## Errors and results -/

/-- The operation named in the text of a `fmt.Errorf` of the package. -/
inductive ErrCtx where
  | encoding
  | insert
  | findentry
  | decode
  | delete
  | deletefolderRange
  | deletefolder
  | read
  | scanDecode
  | kvPut
  | kvGet
  | kvDelete
deriving DecidableEq, Repr

/-- Go `error` values the package sees or builds. -/
inductive Error where
  | fdb (code : Nat)
  | codec (code : Nat)
  | strinc
  | ErrNotFound
  | ErrKvNotFound
  | wrapped (ctx : ErrCtx) (cause : Error)
deriving DecidableEq, Repr

/-- Outcome of a Go function that may panic instead of returning. -/
inductive GoResult (α : Type) where
  | returned (a : α)
  | panicked
deriving DecidableEq, Repr

/-- A Go `interface{}` value as the engine's transaction functions return it. -/
inductive Iface where
  | nil
  | byteSlice (v : Option Bytes)
  | keyValues (kvs : List (Bytes × Bytes))
deriving DecidableEq, Repr

/-! ## The external entry model -/

/-- The part of `filer.Entry` the store handles: path, attributes, chunk list. -/
structure Entry (A C : Type) where
  FullPath : Bytes
  Attr : A
  Chunks : List C
deriving DecidableEq, Repr

/-- The external collaborators of the store, taken as parameters: the entry
encoder and decoder of package `filer` and the compression helpers of package
`util`.  `zeroAttr` is the Go zero value of the attribute record, the content of
an entry whose decoding failed. -/
structure Codec (A C : Type) where
  EncodeAttributesAndChunks : A → List C → Except Error Bytes
  DecodeAttributesAndChunks : Bytes → Except Error (A × List C)
  MaybeGzipData : Bytes → Bytes
  MaybeDecompressData : Bytes → Bytes
  zeroAttr : A

/-- Modelled from the spec: `FullPath.Name()` of package `util`, which is not
among the sources; the spec calls it "the name (not full path)" of an entry,
that is the bytes after the last slash. -/
def Name (fp : Bytes) : Bytes := (fp.reverse.takeWhile (fun b => b != 47)).reverse

/-! ## The engine -/

/-- Contents of the engine, `fdb.Database`: key-value pairs, kept in ascending
key order by the engine (see `Database.WF`). -/
structure Database where
  kvs : List (Bytes × Bytes)
deriving DecidableEq, Repr

/-- The engine's invariant: keys strictly ascending (hence distinct). -/
def Database.WF (db : Database) : Prop := db.kvs.Pairwise (fun a b => keyLt a.1 b.1 = true)

/-- Value stored under `key`, `tr.Get(key).Get()`: `nil` for an absent key, a
non-nil slice for a present one, also when the stored value is empty. -/
def Database.get (db : Database) (key : Bytes) : Option Bytes :=
  (db.kvs.find? (fun kv => kv.1 == key)).map (fun kv => kv.2)

/-- Ordered insertion that replaces the value of a key already present. -/
def insertKV (key value : Bytes) : List (Bytes × Bytes) → List (Bytes × Bytes)
  | [] => [(key, value)]
  | kv :: rest =>
    if keyLt key kv.1 then (key, value) :: kv :: rest
    else if kv.1 = key then (key, value) :: rest
    else kv :: insertKV key value rest

/-- Effect of `tr.Set(key, value)`. -/
def Database.set (db : Database) (key value : Bytes) : Database := ⟨insertKV key value db.kvs⟩

/-- Effect of `tr.Clear(key)`. -/
def Database.clear (db : Database) (key : Bytes) : Database :=
  ⟨db.kvs.filter (fun kv => !(kv.1 == key))⟩

/-- Effect of `tr.ClearRange(r)`: every key of `[Begin, End)` is removed. -/
def Database.clearRange (db : Database) (r : KeyRange) : Database :=
  ⟨db.kvs.filter (fun kv => !r.contains kv.1)⟩

/-- Modelled from the spec: `tr.GetRange(r, fdb.RangeOptions{Limit: limit})` of
the engine's client library, which is not among the sources: "up to `limit`
key/value pairs in ascending key order starting at `lowerBound`".  A limit of 0
is documented by the client as "no limit"; the spec leaves a negative limit open
("reject or treat as no limit") and it is read as no limit here. -/
def Database.getRange (db : Database) (r : KeyRange) (limit : Int) : List (Bytes × Bytes) :=
  let rows := db.kvs.filter (fun kv => r.contains kv.1)
  if limit > 0 then rows.take limit.toNat else rows

/-- How the engine fails a transaction.  `createTransaction`: the transaction
could not be created, `Transact` and `ReadTransact` return `nil, err`.
`operation`: the body's read or the commit failed with an error that is not
retried. -/
inductive Fault where
  | createTransaction (code : Nat)
  | operation (code : Nat)
deriving DecidableEq, Repr

/-- The error a fault surfaces as. -/
def Fault.error : Fault → Error
  | .createTransaction code => .fdb code
  | .operation code => .fdb code

/-- The store: `type FoundationDB struct { db fdb.Database }`. -/
structure FoundationDB where
  db : Database
deriving DecidableEq, Repr

/-- Modelled from the spec: the engine's
`ReadTransact(func(tr) { return tr.Get(key).Get() })`, not among the sources.
On success the result holds the value as a `[]byte` (a nil slice for an absent
key).  When the transaction cannot be created the result is the nil interface;
when the read fails the body's nil slice is passed on with the error. -/
def readTransactGet (fault : Option Fault) (db : Database) (key : Bytes) : Iface × Option Error :=
  match fault with
  | none => (Iface.byteSlice (db.get key), none)
  | some (.createTransaction code) => (Iface.nil, some (.fdb code))
  | some (.operation code) => (Iface.byteSlice none, some (.fdb code))

/-- Modelled from the spec: the engine's `Transact` around a body that writes
and returns `nil, nil`; a failed transaction leaves the contents unchanged. -/
def transactWrite (fault : Option Fault) (db : Database) (body : Database → Database) :
    Database × Option Error :=
  match fault with
  | none => (body db, none)
  | some f => (db, some f.error)

/-- Modelled from the spec: the engine's `Transact` around
`tr.GetRange(r, ...).GetSliceWithError()`; on success the result is a
`[]fdb.KeyValue`. -/
def transactGetRange (fault : Option Fault) (db : Database) (r : KeyRange) (limit : Int) :
    Iface × Option Error :=
  match fault with
  | none => (Iface.keyValues (db.getRange r limit), none)
  | some (.createTransaction code) => (Iface.nil, some (.fdb code))
  | some (.operation code) => (Iface.keyValues [], some (.fdb code))

/-- Modelled from the spec: `fdb.Strinc` of the engine's client library, "the
first key that would sort outside the range prefixed by" its argument: the
trailing 0xFF bytes are dropped and the last remaining byte is incremented;
there is no such key when every byte is 0xFF. -/
def Strinc : Bytes → Option Bytes
  | [] => none
  | b :: rest =>
    match Strinc rest with
    | some r => some (b :: r)
    | none => if b = 255 then none else some [b + 1]

/-- Modelled from the spec: `fdb.PrefixRange`, the "standard prefix-range
derivation over the raw path bytes": `[p, Strinc p)`, an error when `p` is empty
or all 0xFF. -/
def PrefixRange (p : Bytes) : Except Error KeyRange :=
  match Strinc p with
  | some e => .ok ⟨p, e⟩
  | none => .error .strinc

/-! ## The store's operations -/

/-- Go `putKV`. -/
def putKV (fault : Option Fault) (store : FoundationDB) (key value : Bytes) :
    FoundationDB × Option Error :=
  let r := transactWrite fault store.db (fun db => db.set key value)
  (⟨r.1⟩, r.2)

/-- Go `getKV`: `return resp.([]byte), err`.  The type assertion is evaluated
whatever `err` is, and panics on a result that is not a `[]byte`. -/
def getKV (fault : Option Fault) (store : FoundationDB) (key : Bytes) :
    GoResult (Option Bytes × Option Error) :=
  let r := readTransactGet fault store.db key
  match r.1 with
  | .byteSlice v => .returned (v, r.2)
  | _ => .panicked

/-- Go `deleteKV`. -/
def deleteKV (fault : Option Fault) (store : FoundationDB) (key : Bytes) :
    FoundationDB × Option Error :=
  let r := transactWrite fault store.db (fun db => db.clear key)
  (⟨r.1⟩, r.2)

/-- Go `InsertEntry`: encode, gzip when there are more than 50 chunks, put under
the full path. -/
def InsertEntry {A C : Type} (codec : Codec A C) (fault : Option Fault) (store : FoundationDB)
    (entry : Entry A C) : FoundationDB × Option Error :=
  match codec.EncodeAttributesAndChunks entry.Attr entry.Chunks with
  | .error err => (store, some (.wrapped .encoding err))
  | .ok meta =>
    let meta := if entry.Chunks.length > 50 then codec.MaybeGzipData meta else meta
    match putKV fault store entry.FullPath meta with
    | (store1, some err) => (store1, some (.wrapped .insert err))
    | (store1, none) => (store1, none)

/-- Go `UpdateEntry`. -/
def UpdateEntry {A C : Type} (codec : Codec A C) (fault : Option Fault) (store : FoundationDB)
    (entry : Entry A C) : FoundationDB × Option Error :=
  InsertEntry codec fault store entry

/-- Go `FindEntry`; the result pair is `(entry, err)`, `none` the nil entry. -/
def FindEntry {A C : Type} (codec : Codec A C) (fault : Option Fault) (store : FoundationDB)
    (fullpath : Bytes) : GoResult (Option (Entry A C) × Option Error) :=
  match getKV fault store fullpath with
  | .panicked => .panicked
  | .returned (_, some err) => .returned (none, some (.wrapped .findentry err))
  | .returned (none, none) => .returned (none, some .ErrNotFound)
  | .returned (some resp, none) =>
    match codec.DecodeAttributesAndChunks (codec.MaybeDecompressData resp) with
    | .error err => .returned (some ⟨fullpath, codec.zeroAttr, []⟩, some (.wrapped .decode err))
    | .ok (a, c) => .returned (some ⟨fullpath, a, c⟩, none)

/-- Go `DeleteEntry`. -/
def DeleteEntry (fault : Option Fault) (store : FoundationDB) (path : Bytes) :
    FoundationDB × Option Error :=
  match deleteKV fault store path with
  | (store1, some err) => (store1, some (.wrapped .delete err))
  | (store1, none) => (store1, none)

/-- Go `DeleteFolderChildren`: one `ClearRange` over `fdb.PrefixRange([]byte(path))`. -/
def DeleteFolderChildren (fault : Option Fault) (store : FoundationDB) (path : Bytes) :
    FoundationDB × Option Error :=
  match PrefixRange path with
  | .error err => (store, some (.wrapped .deletefolderRange err))
  | .ok range =>
    match transactWrite fault store.db (fun db => db.clearRange range) with
    | (db1, some err) => (⟨db1⟩, some (.wrapped .deletefolder err))
    | (db1, none) => (⟨db1⟩, none)

/-- Go `KvPut`. -/
def KvPut (fault : Option Fault) (store : FoundationDB) (key value : Bytes) :
    FoundationDB × Option Error :=
  match putKV fault store key value with
  | (store1, some err) => (store1, some (.wrapped .kvPut err))
  | (store1, none) => (store1, none)

/-- Go `KvGet`; the result pair is `(value, err)`. -/
def KvGet (fault : Option Fault) (store : FoundationDB) (key : Bytes) :
    GoResult (Option Bytes × Option Error) :=
  match getKV fault store key with
  | .panicked => .panicked
  | .returned (_, some err) => .returned (none, some (.wrapped .kvGet err))
  | .returned (none, none) => .returned (none, some .ErrKvNotFound)
  | .returned (some resp, none) => .returned (some resp, none)

/-- Go `KvDelete`. -/
def KvDelete (fault : Option Fault) (store : FoundationDB) (key : Bytes) :
    FoundationDB × Option Error :=
  match deleteKV fault store key with
  | (store1, some err) => (store1, some (.wrapped .kvDelete err))
  | (store1, none) => (store1, none)

/-! ## Directory listing -/

/-- Go `int64` wrap-around of an integer. -/
def wrapInt64 (x : Int) : Int := (x + 2 ^ 63) % 2 ^ 64 - 2 ^ 63

/-- State of the `for` loop of a listing when it ends: the last key visited,
the decode error that ended it (if any), the entries passed to the callback in
order, and the callback's state. -/
structure LoopResult (σ A C : Type) where
  lastEntry : Bytes
  err : Option Error
  delivered : List (Entry A C)
  state : σ

/-- The loop `for _, kvEntry := range kvResult[startIndex:]` of a listing:
decode each value, stop with an error when one does not decode, pass the entry
to the callback and stop when it returns false. -/
def scanLoop {σ A C : Type} (codec : Codec A C) (eachEntryFunc : σ → Entry A C → σ × Bool) :
    List (Bytes × Bytes) → Bytes → σ → LoopResult σ A C
  | [], lastEntry, st => ⟨lastEntry, none, [], st⟩
  | kvEntry :: rest, _, st =>
    match codec.DecodeAttributesAndChunks (codec.MaybeDecompressData kvEntry.2) with
    | .error err => ⟨kvEntry.1, some (.wrapped .scanDecode err), [], st⟩
    | .ok (a, c) =>
      let entry : Entry A C := ⟨kvEntry.1, a, c⟩
      let r := eachEntryFunc st entry
      if r.2 then
        let s := scanLoop codec eachEntryFunc rest kvEntry.1 r.1
        ⟨s.lastEntry, s.err, entry :: s.delivered, s.state⟩
      else ⟨kvEntry.1, none, [entry], r.1⟩

/-- What a listing returns: `(lastFileName, err)`, together with the trace of
entries passed to the callback and the callback's final state. -/
structure ListResult (σ A C : Type) where
  lastFileName : Bytes
  err : Option Error
  delivered : List (Entry A C)
  state : σ

/-- The lower bound of a listing scan: `dirPath + "/" + startFileName`, or
`dirPath` when the start name is empty. -/
def firstEntry (dirPath startFileName : Bytes) : Bytes :=
  if startFileName ≠ [] then dirPath ++ [47] ++ startFileName else dirPath

/-- The range a listing scans: from `firstEntry` to `dirPath` followed by 0xFF. -/
def listRange (dirPath startFileName : Bytes) : KeyRange :=
  ⟨firstEntry dirPath startFileName, dirPath ++ [255]⟩

/-- Go `ListDirectoryPrefixedEntries`.  The argument `namePfx` is the Go
parameter `prefix`; the function body never reads it. -/
def ListDirectoryPrefixedEntries {σ A C : Type} (codec : Codec A C) (fault : Option Fault)
    (store : FoundationDB) (dirPath startFileName : Bytes) (includeStartFile : Bool)
    (limit : Int) (namePfx : Bytes) (eachEntryFunc : σ → Entry A C → σ × Bool) (st : σ) :
    GoResult (ListResult σ A C) :=
  let fdbRange := listRange dirPath startFileName
  let startIndex := if !includeStartFile then 1 else 0
  let limit := if !includeStartFile then wrapInt64 (limit + 1) else limit
  match transactGetRange fault store.db fdbRange limit with
  | (_, some err) => .returned ⟨[], some (.wrapped .read err), [], st⟩
  | (.keyValues kvResult, none) =>
    if kvResult.length = 0 then .returned ⟨[], none, [], st⟩
    else
      let s := scanLoop codec eachEntryFunc (kvResult.drop startIndex) [] st
      match s.err with
      | some err => .returned ⟨[], some err, s.delivered, s.state⟩
      | none => .returned ⟨Name s.lastEntry, none, s.delivered, s.state⟩
  | (_, none) => .panicked

/-- Go `ListDirectoryEntries`: the listing with an empty name filter. -/
def ListDirectoryEntries {σ A C : Type} (codec : Codec A C) (fault : Option Fault)
    (store : FoundationDB) (dirPath startFileName : Bytes) (includeStartFile : Bool)
    (limit : Int) (eachEntryFunc : σ → Entry A C → σ × Bool) (st : σ) :
    GoResult (ListResult σ A C) :=
  ListDirectoryPrefixedEntries codec fault store dirPath startFileName includeStartFile limit []
    eachEntryFunc st

/-- The entries a listing passed to its callback; empty when it panicked. -/
def deliveredOf {σ A C : Type} : GoResult (ListResult σ A C) → List (Entry A C)
  | .returned r => r.delivered
  | .panicked => []

/-- A callback that accepts every entry and keeps no state. -/
def acceptAll {A C : Type} : Unit → Entry A C → Unit × Bool := fun _ _ => ((), true)

/-! ## A small concrete codec, used to evaluate the operations

Attributes are one byte, a chunk is one byte; the encoding is the attribute
byte followed by the chunk bytes.  Compression puts the two gzip magic bytes in
front, unless they are there already; decompression removes them. -/

/-- Encoder of the concrete codec; attribute byte 31 is refused. -/
def sampleEncode (a : Byte) (cs : List Byte) : Except Error Bytes :=
  if a = 31 then .error (.codec 1) else .ok (a :: cs)

/-- Decoder of the concrete codec. -/
def sampleDecode : Bytes → Except Error (Byte × List Byte)
  | [] => .error (.codec 2)
  | a :: cs => if a = 31 then .error (.codec 3) else .ok (a, cs)

/-- Compression of the concrete codec. -/
def sampleGzip : Bytes → Bytes
  | 31 :: 139 :: rest => 31 :: 139 :: rest
  | b => 31 :: 139 :: b

/-- Decompression of the concrete codec. -/
def sampleGunzip : Bytes → Bytes
  | 31 :: 139 :: rest => rest
  | b => b

/-- The concrete codec. -/
def sampleCodec : Codec Byte Byte :=
  ⟨sampleEncode, sampleDecode, sampleGzip, sampleGunzip, 0⟩

/-! ## Notions the properties are stated with -/

/-- The name of `key` as a direct child of `dirPath`: `some name` when
`key = dirPath + "/" + name` and `name` holds no slash. -/
def childName (dirPath key : Bytes) : Option Bytes :=
  if (dirPath ++ [47]).isPrefixOf key then
    if (key.drop (dirPath.length + 1)).contains 47 then none
    else some (key.drop (dirPath.length + 1))
  else none

/-- Whether `key` is a direct child of `dirPath` with a non-empty name. -/
def isDirectChild (dirPath key : Bytes) : Bool :=
  match childName dirPath key with
  | some name => !name.isEmpty
  | none => false

/-- Whether `key` is a direct child of `dirPath` whose name satisfies `P`. -/
def isChildWith (P : Bytes → Bool) (dirPath key : Bytes) : Bool :=
  match childName dirPath key with
  | some name => P name
  | none => false

/-- The stored direct children of `dirPath` whose name is at or after `s`
(`inclusive`) or strictly after `s`, in the order of the store. -/
def childrenFrom (store : FoundationDB) (dirPath s : Bytes) (inclusive : Bool) :
    List (Bytes × Bytes) :=
  store.db.kvs.filter
    (fun kv => isChildWith (fun n => if inclusive then keyLe s n else keyLt s n) dirPath kv.1)

/-- The entry the loop of a listing builds from one scanned pair. -/
def decodeKV {A C : Type} (codec : Codec A C) (kv : Bytes × Bytes) : Except Error (Entry A C) :=
  match codec.DecodeAttributesAndChunks (codec.MaybeDecompressData kv.2) with
  | .ok (a, c) => .ok ⟨kv.1, a, c⟩
  | .error err => .error err

/-- The rows a listing fetches when the engine does not fail. -/
def scannedRows (store : FoundationDB) (dirPath startFileName : Bytes) (includeStartFile : Bool)
    (limit : Int) : List (Bytes × Bytes) :=
  store.db.getRange (listRange dirPath startFileName)
    (if includeStartFile then limit else wrapInt64 (limit + 1))

/-- Whether a listing returned without panic and with a nil error. -/
def succeeded {σ A C : Type} : GoResult (ListResult σ A C) → Bool
  | .returned r => r.err.isNone
  | .panicked => false

/-- The caller's loop of the pagination property: call `ListDirectoryEntries`
with limit 1 and the start file excluded, take the returned `lastFileName` as
the next cursor, stop at the first call that delivers nothing.  The result is
what the calls delivered, in order; `none` when `fuel` calls were not enough to
reach the end, or a call panicked. -/
def paginate {A C : Type} (codec : Codec A C) (store : FoundationDB) (dirPath : Bytes) :
    Nat → Bytes → Option (List (Entry A C))
  | 0, _ => none
  | fuel + 1, cursor =>
    match ListDirectoryEntries codec none store dirPath cursor false 1 acceptAll () with
    | .returned r =>
      if r.delivered.isEmpty then some []
      else (paginate codec store dirPath fuel r.lastFileName).map (fun rest => r.delivered ++ rest)
    | .panicked => none

/-! ## Concrete stores and entries, used to evaluate the operations -/

/-- An entry of the concrete codec with 51 chunks. -/
def bigEntry : Entry Byte Byte := ⟨[47, 100, 47, 97], 7, List.replicate 51 9⟩

/-- A store that already holds a value at the path of `bigEntry`. -/
def storeWithOld : FoundationDB := ⟨⟨[([47, 100, 47, 97], [1, 2, 3])]⟩⟩

/-- A store with the folder `/d`, files below it, a nested file, the siblings
`/d.bak` and `/d2`, and the unrelated `/e`. -/
def treeStore : FoundationDB :=
  ⟨⟨[([47, 100], [1]),
     ([47, 100, 46, 98, 97, 107], [2]),
     ([47, 100, 47, 115, 117, 98, 47, 122], [3]),
     ([47, 100, 47, 120], [4]),
     ([47, 100, 47, 121], [5]),
     ([47, 100, 50], [6]),
     ([47, 101], [7])]⟩⟩

/-- A store with keys below a path that ends in the byte 0xFF. -/
def highByteStore : FoundationDB :=
  ⟨⟨[([47, 100], [1]),
     ([47, 100, 255], [2]),
     ([47, 100, 255, 47, 120], [3]),
     ([47, 100, 255, 255], [4]),
     ([47, 101], [5])]⟩⟩

/-- The folder `/d` with the children `a`, `b`, `c`; no entry for `/d` itself. -/
def abcStore : FoundationDB :=
  ⟨⟨[([47, 100, 47, 97], [1]), ([47, 100, 47, 98], [2]), ([47, 100, 47, 99], [3])]⟩⟩

/-- The folder `/d` with the children `a`, `b`, `c` and an entry for `/d`. -/
def abcStoreWithDir : FoundationDB :=
  ⟨⟨[([47, 100], [0]), ([47, 100, 47, 97], [1]), ([47, 100, 47, 98], [2]),
     ([47, 100, 47, 99], [3])]⟩⟩

/-- The folder `/d` with the children `b` and `c` only. -/
def bcStore : FoundationDB :=
  ⟨⟨[([47, 100, 47, 98], [2]), ([47, 100, 47, 99], [3])]⟩⟩

/-- The folder `/d` with the children `x1`, `x2`, `y`. -/
def xyStore : FoundationDB :=
  ⟨⟨[([47, 100, 47, 120, 49], [1]), ([47, 100, 47, 120, 50], [2]), ([47, 100, 47, 121], [3])]⟩⟩

/-! ## The order of the key space -/

theorem keyLt_cons_iff (a b : Byte) (as bs : Bytes) :
    keyLt (a :: as) (b :: bs) = true ↔ a.val < b.val ∨ (a = b ∧ keyLt as bs = true) := by
  simp only [keyLt, Fin.lt_def]
  constructor
  · intro h
    split_ifs at h with h1 h2
    · exact Or.inl h1
    · exact Or.inr ⟨Fin.ext (by omega), h⟩
  · rintro (h | ⟨rfl, h⟩)
    · simp [h]
    · simp [h]

theorem keyLt_nil_right (a : Bytes) : keyLt a [] = false := by
  cases a <;> rfl

theorem keyLt_irrefl (a : Bytes) : keyLt a a = false := by
  induction a with
  | nil => rfl
  | cons x xs ih => simp [keyLt, ih]

theorem keyLt_trans : ∀ (a b c : Bytes), keyLt a b = true → keyLt b c = true → keyLt a c = true
  | _, [], _, h, _ => by simp [keyLt_nil_right] at h
  | _, _ :: _, [], _, h => by simp [keyLt_nil_right] at h
  | [], _ :: _, _ :: _, _, _ => by simp [keyLt]
  | x :: xs, y :: ys, z :: zs, h1, h2 => by
    rw [keyLt_cons_iff] at h1 h2 ⊢
    rcases h1 with h1 | ⟨rfl, h1⟩ <;> rcases h2 with h2 | ⟨rfl, h2⟩
    · exact Or.inl (by omega)
    · exact Or.inl h1
    · exact Or.inl h2
    · exact Or.inr ⟨rfl, keyLt_trans xs ys zs h1 h2⟩

theorem keyLt_total : ∀ (a b : Bytes), keyLt a b = false → a ≠ b → keyLt b a = true
  | [], [], _, h => by simp at h
  | [], _ :: _, h, _ => by simp [keyLt] at h
  | _ :: _, [], _, _ => by simp [keyLt]
  | x :: xs, y :: ys, h1, h2 => by
    rw [keyLt_cons_iff]
    have h3 : ¬ (x.val < y.val ∨ (x = y ∧ keyLt xs ys = true)) := by
      rw [← keyLt_cons_iff]; simp [h1]
    push_neg at h3
    by_cases hxy : x = y
    · subst hxy
      refine Or.inr ⟨rfl, keyLt_total xs ys ?_ ?_⟩
      · have := h3.2 rfl
        simpa using this
      · intro h; exact h2 (by rw [h])
    · left
      have : x.val ≠ y.val := fun h => hxy (Fin.ext h)
      omega

theorem keyLt_asymm (a b : Bytes) (h : keyLt a b = true) : keyLt b a = false := by
  cases hba : keyLt b a with
  | false => rfl
  | true =>
    have := keyLt_trans a b a h hba
    rw [keyLt_irrefl] at this
    exact absurd this (by simp)

theorem keyLt_append_left (p a b : Bytes) : keyLt (p ++ a) (p ++ b) = keyLt a b := by
  induction p with
  | nil => rfl
  | cons x xs ih => simp [keyLt, ih]

theorem keyLe_append_left (p a b : Bytes) : keyLe (p ++ a) (p ++ b) = keyLe a b := by
  simp [keyLe, keyLt_append_left]

theorem keyLe_refl (a : Bytes) : keyLe a a = true := by simp [keyLe, keyLt_irrefl]

theorem keyLe_nil (a : Bytes) : keyLe [] a = true := by simp [keyLe, keyLt_nil_right]

/-- A key whose bytes are all 0xFF is below exactly the keys it is an initial segment of. -/
theorem keyLe_allFF (r : Bytes) (h : Strinc r = none) (k : Bytes) :
    keyLe r k = r.isPrefixOf k := by
  induction r generalizing k with
  | nil => simp [keyLe_nil]
  | cons b rest ih =>
    simp only [Strinc] at h
    cases hr : Strinc rest with
    | some q => simp [hr] at h
    | none =>
      rw [hr] at h
      have hb : b = 255 := by
        by_contra hb
        simp [hb] at h
      subst hb
      cases k with
      | nil => simp [keyLe, keyLt]
      | cons c ks =>
        have := ih hr ks
        simp only [keyLe] at this ⊢
        simp only [keyLt, List.isPrefixOf]
        by_cases hc : c = 255
        · subst hc
          simp [this]
        · have hv : c.val ≠ 255 := fun h => hc (Fin.ext h)
          have hlt : c < 255 := Fin.lt_def.mpr (by have := c.isLt; show c.val < 255; omega)
          have : ((255 : Byte) == c) = false := by
            simp; exact fun h => hc h.symm
          simp [hlt, this]

/-- The range `[p, Strinc p)` holds exactly the keys that begin with `p`. -/
theorem strinc_range (p q : Bytes) (h : Strinc p = some q) (k : Bytes) :
    (KeyRange.mk p q).contains k = p.isPrefixOf k := by
  induction p generalizing k q with
  | nil => simp [Strinc] at h
  | cons b rest ih =>
    simp only [Strinc] at h
    cases hr : Strinc rest with
    | some r =>
      rw [hr] at h
      simp only [Option.some.injEq] at h
      subst h
      cases k with
      | nil => simp [KeyRange.contains, keyLe, keyLt]
      | cons c ks =>
        have := ih r hr ks
        simp only [KeyRange.contains, keyLe] at this ⊢
        simp only [keyLt, Fin.lt_def, List.isPrefixOf]
        by_cases h1 : c.val < b.val
        · have : (b == c) = false := by
            simp; intro h; subst h; omega
          simp [h1, this]
        · by_cases h2 : b.val < c.val
          · have : (b == c) = false := by
              simp; intro h; subst h; omega
            simp [h1, h2, this]
          · have hbc : b = c := Fin.ext (by omega)
            subst hbc
            simpa [h1] using this
    | none =>
      rw [hr] at h
      by_cases hb : b = 255
      · simp [hb] at h
      · simp only [hb, if_false, Option.some.injEq] at h
        subst h
        have hbv : b.val < 255 := by
          have : b.val ≠ 255 := fun h => hb (Fin.ext h)
          omega
        have hb1 : (b + 1).val = b.val + 1 := by
          rw [Fin.val_add]; simp; omega
        cases k with
        | nil => simp [KeyRange.contains, keyLe, keyLt]
        | cons c ks =>
          have := keyLe_allFF rest hr ks
          simp only [KeyRange.contains, keyLe] at this ⊢
          simp only [keyLt, Fin.lt_def, List.isPrefixOf, hb1, keyLt_nil_right]
          by_cases h1 : c.val < b.val
          · have : (b == c) = false := by
              simp; intro h; subst h; omega
            simp [h1, this]
          · by_cases h2 : b.val < c.val
            · have : (b == c) = false := by
                simp; intro h; subst h; omega
              have h3 : ¬ c.val < b.val + 1 := by omega
              simp [h1, h2, this, h3]
            · have hbc : b = c := Fin.ext (by omega)
              subst hbc
              simpa [h1] using this

/-! ## Lookup after the engine's writes -/

theorem find_insertKV_self (key value : Bytes) (l : List (Bytes × Bytes)) :
    (insertKV key value l).find? (fun kv => kv.1 == key) = some (key, value) := by
  induction l with
  | nil => simp [insertKV]
  | cons kv rest ih =>
    simp only [insertKV]
    split_ifs with h1 h2
    · simp
    · simp
    · rw [List.find?_cons_of_neg _ (by simpa using h2)]
      exact ih

theorem get_set_self (db : Database) (key value : Bytes) :
    (db.set key value).get key = some value := by
  simp [Database.get, Database.set, find_insertKV_self]

theorem find_filter_key (P : Bytes → Bool) (key : Bytes) (l : List (Bytes × Bytes)) :
    (l.filter (fun kv => P kv.1)).find? (fun kv => kv.1 == key) =
      if P key then l.find? (fun kv => kv.1 == key) else none := by
  induction l with
  | nil => simp
  | cons kv rest ih =>
    by_cases hk : kv.1 = key
    · by_cases hp : P key
      · have hp1 : P kv.1 = true := by rw [hk]; exact hp
        simp [List.filter_cons, hp1, hk, hp]
      · have hp1 : P kv.1 = false := by rw [hk]; simpa using hp
        rw [List.filter_cons]
        simp only [hp1, Bool.false_eq_true, if_false]
        rw [ih]
        simp [hp]
    · by_cases hp1 : P kv.1
      · rw [List.filter_cons]
        simp only [hp1, if_true]
        rw [List.find?_cons_of_neg _ (by simpa using hk), List.find?_cons_of_neg _ (by simpa using hk)]
        exact ih
      · rw [List.filter_cons]
        simp only [hp1, Bool.false_eq_true, if_false]
        rw [List.find?_cons_of_neg _ (by simpa using hk)]
        exact ih

theorem get_clearRange (db : Database) (r : KeyRange) (key : Bytes) :
    (db.clearRange r).get key = if r.contains key then none else db.get key := by
  simp only [Database.get, Database.clearRange]
  rw [find_filter_key (fun k => !r.contains k) key db.kvs]
  cases r.contains key <;> simp

theorem strinc_isSome (p : Bytes) (h : ∃ b ∈ p, b ≠ 255) : (Strinc p).isSome = true := by
  induction p with
  | nil => simp at h
  | cons b rest ih =>
    simp only [Strinc]
    cases hr : Strinc rest with
    | some r => simp
    | none =>
      by_cases hb : b = 255
      · exfalso
        obtain ⟨c, hc, hne⟩ := h
        rcases List.mem_cons.mp hc with rfl | hc
        · exact hne hb
        · have := ih ⟨c, hc, hne⟩
          simp [hr] at this
      · simp [hb]

/-! ## Insert and find -/

/-- C1: an entry the encoder accepts, whose encoding the decoder inverts and
the compression helpers leave readable, is stored by `InsertEntry` without
error and read back unchanged by `FindEntry` at its path, for at most 50 chunks
(raw value) and for more (value through `MaybeGzipData`), over any previous
contents; so after two inserts at one path the second entry is found. -/
theorem insertEntry_findEntry_roundtrip {A C : Type} (codec : Codec A C) (store : FoundationDB)
    (e : Entry A C) (meta : Bytes)
    (henc : codec.EncodeAttributesAndChunks e.Attr e.Chunks = .ok meta)
    (hdec : codec.DecodeAttributesAndChunks meta = .ok (e.Attr, e.Chunks))
    (hraw : codec.MaybeDecompressData meta = meta)
    (hgz : codec.MaybeDecompressData (codec.MaybeGzipData meta) = meta) :
    (InsertEntry codec none store e).2 = none ∧
    FindEntry codec none (InsertEntry codec none store e).1 e.FullPath
      = .returned (some e, none) ∧
    (InsertEntry codec none store e).1.db.get e.FullPath
      = some (if e.Chunks.length > 50 then codec.MaybeGzipData meta else meta) ∧
    (∀ e0 : Entry A C, e0.FullPath = e.FullPath →
      FindEntry codec none (InsertEntry codec none (InsertEntry codec none store e0).1 e).1
        e.FullPath = .returned (some e, none)) := by
  have key : ∀ s : FoundationDB,
      (InsertEntry codec none s e).2 = none ∧
      FindEntry codec none (InsertEntry codec none s e).1 e.FullPath = .returned (some e, none) ∧
      (InsertEntry codec none s e).1.db.get e.FullPath
        = some (if e.Chunks.length > 50 then codec.MaybeGzipData meta else meta) := by
    intro s
    have hget : (InsertEntry codec none s e).1.db.get e.FullPath
        = some (if e.Chunks.length > 50 then codec.MaybeGzipData meta else meta) := by
      simp only [InsertEntry, henc, putKV, transactWrite]
      exact get_set_self _ _ _
    refine ⟨?_, ?_, hget⟩
    · simp [InsertEntry, henc, putKV, transactWrite]
    · simp only [FindEntry, getKV, readTransactGet, hget]
      by_cases h50 : e.Chunks.length > 50
      · simp only [h50, if_true, hgz, hdec]
      · simp only [h50, if_false, hraw, hdec]
  exact ⟨(key store).1, (key store).2.1, (key store).2.2, fun e0 _ => (key _).2.1⟩

theorem insertEntry_findEntry_roundtrip_witness :
    sampleCodec.EncodeAttributesAndChunks bigEntry.Attr bigEntry.Chunks
        = .ok (7 :: List.replicate 51 9) ∧
    (InsertEntry sampleCodec none storeWithOld bigEntry).2 = none ∧
    FindEntry sampleCodec none (InsertEntry sampleCodec none storeWithOld bigEntry).1
      bigEntry.FullPath = .returned (some bigEntry, none) :=
  have h := insertEntry_findEntry_roundtrip sampleCodec storeWithOld bigEntry
    (7 :: List.replicate 51 9) rfl rfl (by decide) (by decide)
  ⟨rfl, h.1, h.2.1⟩

/-! ## The not-found contract -/

/-- C2: when the engine read succeeds, `FindEntry` returns the nil entry with
`ErrNotFound` exactly when the key is absent and `KvGet` returns the nil value
with `ErrKvNotFound` exactly when the key is absent; for an absent key neither
returns without error, for a present key neither reports not-found, and
neither panics. -/
theorem notFound_iff_absent {A C : Type} (codec : Codec A C) (store : FoundationDB)
    (p k : Bytes) :
    (FindEntry codec none store p = .returned (none, some .ErrNotFound)
      ↔ store.db.get p = none) ∧
    (KvGet none store k = .returned (none, some .ErrKvNotFound) ↔ store.db.get k = none) ∧
    (∀ ent err, FindEntry codec none store p = .returned (ent, err) →
      (err = some .ErrNotFound ↔ store.db.get p = none) ∧
      (ent = none ↔ store.db.get p = none)) ∧
    (∀ v err, KvGet none store k = .returned (v, err) →
      (err = some .ErrKvNotFound ↔ store.db.get k = none) ∧
      (v = store.db.get k) ∧ (err = none ↔ store.db.get k ≠ none)) ∧
    FindEntry codec none store p ≠ .panicked ∧ KvGet none store k ≠ .panicked := by
  refine ⟨?_, ?_, ?_, ?_, ?_, ?_⟩
  · simp only [FindEntry, getKV, readTransactGet]
    cases hg : store.db.get p with
    | none => simp
    | some v =>
      simp only
      cases codec.DecodeAttributesAndChunks (codec.MaybeDecompressData v) with
      | error err => simp
      | ok ac => simp
  · simp only [KvGet, getKV, readTransactGet]
    cases hg : store.db.get k with
    | none => simp
    | some v => simp
  · intro ent err
    simp only [FindEntry, getKV, readTransactGet]
    cases hg : store.db.get p with
    | none =>
      simp only [GoResult.returned.injEq, Prod.mk.injEq]
      rintro ⟨rfl, rfl⟩
      simp
    | some v =>
      simp only
      cases codec.DecodeAttributesAndChunks (codec.MaybeDecompressData v) with
      | error e1 =>
        simp only [GoResult.returned.injEq, Prod.mk.injEq]
        rintro ⟨rfl, rfl⟩
        simp
      | ok ac =>
        simp only [GoResult.returned.injEq, Prod.mk.injEq]
        rintro ⟨rfl, rfl⟩
        simp
  · intro v err
    simp only [KvGet, getKV, readTransactGet]
    cases hg : store.db.get k with
    | none =>
      simp only [GoResult.returned.injEq, Prod.mk.injEq]
      rintro ⟨rfl, rfl⟩
      simp
    | some w =>
      simp only [GoResult.returned.injEq, Prod.mk.injEq]
      rintro ⟨rfl, rfl⟩
      simp
  · simp only [FindEntry, getKV, readTransactGet]
    cases hg : store.db.get p with
    | none => simp
    | some v =>
      simp only
      cases codec.DecodeAttributesAndChunks (codec.MaybeDecompressData v) <;> simp
  · simp only [KvGet, getKV, readTransactGet]
    cases hg : store.db.get k <;> simp

/-! ## Deleting by byte range -/

/-- C7: for a path `p` with a byte other than 0xFF, the range `[p, Strinc p)`
of the prefix-range derivation holds exactly the keys that begin with `p`, and
`DeleteFolderChildren p` succeeds and leaves exactly the previous pairs whose
key does not begin with `p`: no key beginning with `p` remains, every other key
keeps its value. -/
theorem deleteFolderChildren_clears_exactly (store : FoundationDB) (p : Bytes)
    (h : ∃ b ∈ p, b ≠ 255) :
    (Strinc p).isSome = true ∧
    (∀ q, Strinc p = some q →
      PrefixRange p = .ok ⟨p, q⟩ ∧ ∀ k, (KeyRange.mk p q).contains k = true ↔ p <+: k) ∧
    DeleteFolderChildren none store p
      = (⟨⟨store.db.kvs.filter (fun kv => !(p.isPrefixOf kv.1))⟩⟩, none) ∧
    (∀ k, p <+: k → (DeleteFolderChildren none store p).1.db.get k = none) ∧
    (∀ k, ¬ p <+: k → (DeleteFolderChildren none store p).1.db.get k = store.db.get k) := by
  have hs := strinc_isSome p h
  obtain ⟨q, hq⟩ := Option.isSome_iff_exists.mp hs
  have hrange : ∀ k, (KeyRange.mk p q).contains k = p.isPrefixOf k := strinc_range p q hq
  have hdel : DeleteFolderChildren none store p = (⟨store.db.clearRange ⟨p, q⟩⟩, none) := by
    simp [DeleteFolderChildren, PrefixRange, hq, transactWrite]
  refine ⟨hs, ?_, ?_, ?_, ?_⟩
  · intro q1 hq1
    rw [hq] at hq1
    simp only [Option.some.injEq] at hq1
    subst hq1
    refine ⟨by simp [PrefixRange, hq], fun k => ?_⟩
    rw [hrange k, List.isPrefixOf_iff_prefix]
  · rw [hdel]
    simp only [Database.clearRange, hrange]
  · intro k hk
    rw [hdel]
    simp only [get_clearRange, hrange]
    simp [List.isPrefixOf_iff_prefix.mpr hk]
  · intro k hk
    rw [hdel]
    simp only [get_clearRange, hrange]
    have : p.isPrefixOf k = false := by
      cases hp : p.isPrefixOf k with
      | false => rfl
      | true => exact absurd (List.isPrefixOf_iff_prefix.mp hp) hk
    simp [this]

theorem deleteFolderChildren_clears_exactly_witness :
    (∃ b ∈ ([47, 100, 255] : Bytes), b ≠ 255) ∧
    Strinc [47, 100, 255] = some [47, 101] ∧
    DeleteFolderChildren none highByteStore [47, 100, 255]
      = (⟨⟨highByteStore.db.kvs.filter
            (fun kv => !(([47, 100, 255] : Bytes).isPrefixOf kv.1))⟩⟩, none) ∧
    (DeleteFolderChildren none highByteStore [47, 100, 255]).1.db.kvs
      = [([47, 100], [1]), ([47, 101], [5])] :=
  ⟨by decide, by decide,
   (deleteFolderChildren_clears_exactly highByteStore [47, 100, 255] (by decide)).2.2.1,
   by decide⟩

/-- C8 (the code at the failing input): `DeleteFolderChildren "/d"` clears the
byte range of the raw path, so together with the descendants it removes the
entry at `/d` itself and the siblings `/d.bak` and `/d2`, whose paths do not
begin with `/d/`; only `/e` is left. -/
theorem deleteFolderChildren_removes_folder_and_siblings :
    treeStore.db.get [47, 100] = some [1] ∧
    treeStore.db.get [47, 100, 50] = some [6] ∧
    treeStore.db.get [47, 100, 46, 98, 97, 107] = some [2] ∧
    ([47, 100, 47] : Bytes).isPrefixOf [47, 100] = false ∧
    ([47, 100, 47] : Bytes).isPrefixOf [47, 100, 50] = false ∧
    ([47, 100, 47] : Bytes).isPrefixOf [47, 100, 46, 98, 97, 107] = false ∧
    DeleteFolderChildren none treeStore [47, 100] = (⟨⟨[([47, 101], [7])]⟩⟩, none) ∧
    (DeleteFolderChildren none treeStore [47, 100]).1.db.get [47, 100] = none ∧
    (DeleteFolderChildren none treeStore [47, 100]).1.db.get [47, 100, 50] = none ∧
    (DeleteFolderChildren none treeStore [47, 100]).1.db.get [47, 100, 46, 98, 97, 107]
      = none := by
  decide

/-! ## Engine failure on a read -/

/-- C10 (the code at the failing input): when the read transaction returns the
nil result with an error, `getKV` evaluates the type assertion on the nil
interface and panics, and so do `FindEntry` and `KvGet`; no error is returned.
A listing under the same failure checks the error first and returns it. -/
theorem getKV_panics_on_nil_result {A C : Type} (codec : Codec A C) (store : FoundationDB)
    (key : Bytes) (code : Nat) :
    readTransactGet (some (.createTransaction code)) store.db key
      = (Iface.nil, some (.fdb code)) ∧
    getKV (some (.createTransaction code)) store key = .panicked ∧
    FindEntry codec (some (.createTransaction code)) store key = .panicked ∧
    KvGet (some (.createTransaction code)) store key = .panicked ∧
    ListDirectoryEntries codec (some (.createTransaction code)) store key [] true 1
        acceptAll ()
      = .returned ⟨[], some (.wrapped .read (.fdb code)), [], ()⟩ := by
  refine ⟨rfl, rfl, rfl, rfl, rfl⟩

/-! ## Listing: evaluations -/

/-- C5 (the code at the failing input): the name filter is never read, so a
listing returns the same result for every filter; with the filter `x` over the
children `x1`, `x2`, `y` it delivers `y` as well, whose name does not begin
with `x`. -/
theorem listPrefixed_ignores_name_filter :
    (∀ (σ A C : Type) (codec : Codec A C) (fault : Option Fault) (store : FoundationDB)
        (dirPath startFileName : Bytes) (includeStartFile : Bool) (limit : Int)
        (namePfx : Bytes) (eachEntryFunc : σ → Entry A C → σ × Bool) (st : σ),
      ListDirectoryPrefixedEntries codec fault store dirPath startFileName includeStartFile
          limit namePfx eachEntryFunc st
        = ListDirectoryPrefixedEntries codec fault store dirPath startFileName includeStartFile
          limit [] eachEntryFunc st) ∧
    (deliveredOf (ListDirectoryPrefixedEntries sampleCodec none xyStore [47, 100] [] true 10
        [120] acceptAll ())).map (fun e => Name e.FullPath) = [[120, 49], [120, 50], [121]] ∧
    ([120] : Bytes).isPrefixOf [121] = false := by
  refine ⟨fun _ _ _ _ _ _ _ _ _ _ _ _ _ => rfl, by decide, by decide⟩

/-- C9 (the code at the failing input): with the start name `a` not stored and
the start file excluded, limit 2, the scan range holds `/d/b` and `/d/c`, both
greater than `/d/a`, and the listing drops `/d/b` and delivers `/d/c` only. -/
theorem list_exclusive_drops_first_when_start_absent :
    bcStore.db.get [47, 100, 47, 97] = none ∧
    (bcStore.db.kvs.filter (fun kv => keyLt [47, 100, 47, 97] kv.1 &&
        (listRange [47, 100] [97]).contains kv.1)).map Prod.fst
      = [[47, 100, 47, 98], [47, 100, 47, 99]] ∧
    (deliveredOf (ListDirectoryEntries sampleCodec none bcStore [47, 100] [97] false 2
        acceptAll ())).map (fun e => e.FullPath) = [[47, 100, 47, 99]] := by
  decide

/-- C4 (the code at the failing input): with no entry stored for `/d` itself,
paginating from the empty cursor with limit 1 never delivers the first child
`a`: the first call drops it as if it were the start file.  With an entry for
`/d` stored the same loop delivers `a`, `b`, `c`. -/
theorem paginate_skips_first_child_without_dir_entry :
    abcStore.db.get [47, 100] = none ∧
    (paginate sampleCodec abcStore [47, 100] 10 []).map (List.map (fun e => e.FullPath))
      = some [[47, 100, 47, 98], [47, 100, 47, 99]] ∧
    (paginate sampleCodec abcStoreWithDir [47, 100] 10 []).map
        (List.map (fun e => e.FullPath))
      = some [[47, 100, 47, 97], [47, 100, 47, 98], [47, 100, 47, 99]] := by
  decide

/-! ## Listing: what is delivered lies in the scan range -/

theorem keyLe_trans (a b c : Bytes) (h1 : keyLe a b = true) (h2 : keyLe b c = true) :
    keyLe a c = true := by
  simp only [keyLe, Bool.not_eq_true'] at h1 h2 ⊢
  cases hca : keyLt c a with
  | false => rfl
  | true =>
    exfalso
    by_cases hab : a = b
    · subst hab
      rw [hca] at h2
      exact absurd h2 (by simp)
    · have hlt : keyLt a b = true := keyLt_total b a h1 (fun h => hab h.symm)
      have := keyLt_trans c a b hca hlt
      rw [this] at h2
      exact absurd h2 (by simp)

theorem keyLe_append_right (p s : Bytes) : keyLe p (p ++ s) = true := by
  have := keyLe_append_left p [] s
  simp only [List.append_nil] at this
  rw [this]
  exact keyLe_nil s

theorem keyLe_firstEntry (dirPath startFileName : Bytes) :
    keyLe dirPath (firstEntry dirPath startFileName) = true := by
  unfold firstEntry
  split_ifs
  · rw [List.append_assoc]
    exact keyLe_append_right _ _
  · exact keyLe_refl _

/-- A key at or above `p` and below `p` followed by 0xFF begins with `p`. -/
theorem isPrefixOf_of_between (p k : Bytes) (h1 : keyLe p k = true)
    (h2 : keyLt k (p ++ [255]) = true) : p.isPrefixOf k = true := by
  induction p generalizing k with
  | nil => simp
  | cons b r ih =>
    cases k with
    | nil => simp [keyLe, keyLt] at h1
    | cons c ks =>
      rw [List.cons_append, keyLt_cons_iff] at h2
      have h3 : ¬ (c.val < b.val ∨ (c = b ∧ keyLt ks r = true)) := by
        rw [← keyLt_cons_iff]
        simpa [keyLe] using h1
      push_neg at h3
      rcases h2 with h2 | ⟨rfl, h2⟩
      · omega
      · have h4 : keyLe r ks = true := by
          have := h3.2 rfl
          simpa [keyLe] using this
        simp [List.isPrefixOf, ih ks h4 h2]

theorem scanLoop_delivered_mem {σ A C : Type} (codec : Codec A C)
    (eachEntryFunc : σ → Entry A C → σ × Bool) (l : List (Bytes × Bytes)) (last : Bytes) (st : σ)
    (e : Entry A C) (he : e ∈ (scanLoop codec eachEntryFunc l last st).delivered) :
    ∃ v, (e.FullPath, v) ∈ l ∧ decodeKV codec (e.FullPath, v) = .ok e := by
  induction l generalizing last st with
  | nil => simp [scanLoop] at he
  | cons kv rest ih =>
    simp only [scanLoop] at he
    cases hd : codec.DecodeAttributesAndChunks (codec.MaybeDecompressData kv.2) with
    | error err => simp [hd] at he
    | ok ac =>
      obtain ⟨a, c⟩ := ac
      simp only [hd] at he
      split_ifs at he with hcont
      · rcases List.mem_cons.mp he with rfl | he
        · exact ⟨kv.2, by simp, by simp [decodeKV, hd]⟩
        · obtain ⟨v, hv, hdv⟩ := ih _ _ he
          exact ⟨v, List.mem_cons_of_mem _ hv, hdv⟩
      · simp only [List.mem_singleton] at he
        subst he
        exact ⟨kv.2, by simp, by simp [decodeKV, hd]⟩

theorem mem_getRange (db : Database) (r : KeyRange) (limit : Int) (kv : Bytes × Bytes)
    (h : kv ∈ db.getRange r limit) : kv ∈ db.kvs ∧ r.contains kv.1 = true := by
  simp only [Database.getRange] at h
  split_ifs at h
  · exact List.mem_filter.mp (List.mem_of_mem_take h)
  · exact List.mem_filter.mp h

theorem deliveredOf_listPrefixed {σ A C : Type} (codec : Codec A C)
    (store : FoundationDB) (dirPath startFileName : Bytes) (includeStartFile : Bool)
    (limit : Int) (namePfx : Bytes) (eachEntryFunc : σ → Entry A C → σ × Bool) (st : σ) :
    deliveredOf (ListDirectoryPrefixedEntries codec none store dirPath startFileName
      includeStartFile limit namePfx eachEntryFunc st)
    = (scanLoop codec eachEntryFunc
        ((scannedRows store dirPath startFileName includeStartFile limit).drop
          (if includeStartFile then 0 else 1)) [] st).delivered := by
  cases includeStartFile
  · simp only [ListDirectoryPrefixedEntries, transactGetRange, scannedRows, Bool.not_false,
      if_true, Bool.false_eq_true, if_false]
    split_ifs with hlen
    · rw [List.length_eq_zero.mp hlen]
      simp [scanLoop, deliveredOf]
    · split <;> rfl
  · simp only [ListDirectoryPrefixedEntries, transactGetRange, scannedRows, Bool.not_true,
      if_true, Bool.false_eq_true, if_false]
    split_ifs with hlen
    · rw [List.length_eq_zero.mp hlen]
      simp [scanLoop, deliveredOf]
    · split <;> rfl

theorem listPrefixed_delivered_mem {σ A C : Type} (codec : Codec A C) (fault : Option Fault)
    (store : FoundationDB) (dirPath startFileName : Bytes) (includeStartFile : Bool)
    (limit : Int) (namePfx : Bytes) (eachEntryFunc : σ → Entry A C → σ × Bool) (st : σ)
    (e : Entry A C)
    (he : e ∈ deliveredOf (ListDirectoryPrefixedEntries codec fault store dirPath startFileName
      includeStartFile limit namePfx eachEntryFunc st)) :
    ∃ v, (e.FullPath, v) ∈ store.db.kvs ∧ decodeKV codec (e.FullPath, v) = .ok e ∧
      (listRange dirPath startFileName).contains e.FullPath = true := by
  cases fault with
  | some f =>
    cases f <;> simp [ListDirectoryPrefixedEntries, transactGetRange, deliveredOf] at he
  | none =>
    rw [deliveredOf_listPrefixed] at he
    obtain ⟨v, hv, hdv⟩ := scanLoop_delivered_mem codec eachEntryFunc _ _ _ e he
    have := mem_getRange _ _ _ _ (List.mem_of_mem_drop hv)
    exact ⟨v, this.1, hdv, this.2⟩

/-- C6, amended: each entry a listing passes to its callback is the decoding of
a stored pair whose key lies in the scan range, from `firstEntry` up to
`dirPath` followed by 0xFF; such a key begins with the bytes of `dirPath`.
Nothing restricts it to a direct child of `dirPath`. -/
theorem list_delivers_keys_of_scan_range {σ A C : Type} (codec : Codec A C)
    (fault : Option Fault) (store : FoundationDB) (dirPath startFileName : Bytes)
    (includeStartFile : Bool) (limit : Int) (eachEntryFunc : σ → Entry A C → σ × Bool) (st : σ)
    (e : Entry A C)
    (he : e ∈ deliveredOf (ListDirectoryEntries codec fault store dirPath startFileName
      includeStartFile limit eachEntryFunc st)) :
    (∃ v, (e.FullPath, v) ∈ store.db.kvs ∧ decodeKV codec (e.FullPath, v) = .ok e) ∧
    keyLe (firstEntry dirPath startFileName) e.FullPath = true ∧
    keyLt e.FullPath (dirPath ++ [255]) = true ∧
    dirPath <+: e.FullPath := by
  obtain ⟨v, hv, hdv, hr⟩ := listPrefixed_delivered_mem codec fault store dirPath startFileName
    includeStartFile limit [] eachEntryFunc st e he
  simp only [KeyRange.contains, listRange, Bool.and_eq_true] at hr
  refine ⟨⟨v, hv, hdv⟩, hr.1, hr.2, ?_⟩
  rw [← List.isPrefixOf_iff_prefix]
  exact isPrefixOf_of_between dirPath e.FullPath
    (keyLe_trans _ _ _ (keyLe_firstEntry dirPath startFileName) hr.1) hr.2

theorem list_delivers_keys_of_scan_range_witness :
    (⟨[47, 100, 47, 115, 117, 98, 47, 122], 3, []⟩ : Entry Byte Byte)
      ∈ deliveredOf (ListDirectoryEntries sampleCodec none treeStore [47, 100] [] true 10
          acceptAll ()) ∧
    keyLe (firstEntry [47, 100] []) [47, 100, 47, 115, 117, 98, 47, 122] = true ∧
    keyLt [47, 100, 47, 115, 117, 98, 47, 122] ([47, 100] ++ [255]) = true ∧
    ([47, 100] : Bytes) <+: [47, 100, 47, 115, 117, 98, 47, 122] :=
  ⟨by decide,
   (list_delivers_keys_of_scan_range sampleCodec none treeStore [47, 100] [] true 10 acceptAll ()
      ⟨[47, 100, 47, 115, 117, 98, 47, 122], 3, []⟩ (by decide)).2⟩

theorem isDirectChild_iff (dirPath key : Bytes) :
    isDirectChild dirPath key = true ↔
      ∃ name : Bytes, name ≠ [] ∧ (47 : Byte) ∉ name ∧ key = dirPath ++ [47] ++ name := by
  unfold isDirectChild childName
  constructor
  · intro h
    by_cases h1 : (dirPath ++ [47]).isPrefixOf key = true
    · rw [if_pos h1] at h
      obtain ⟨t, ht⟩ := List.isPrefixOf_iff_prefix.mp h1
      have hdrop : key.drop (dirPath.length + 1) = t := by
        rw [← ht]
        have : (dirPath ++ [47]).length = dirPath.length + 1 := by simp
        rw [← this, List.drop_left]
      rw [hdrop] at h
      by_cases h2 : t.contains 47 = true
      · rw [if_pos h2] at h
        exact absurd h (by simp)
      · rw [if_neg h2] at h
        refine ⟨t, ?_, ?_, ht.symm⟩
        · intro ht0
          subst ht0
          exact absurd h (by simp)
        · simpa using h2
    · rw [if_neg h1] at h
      exact absurd h (by simp)
  · rintro ⟨name, hne, hslash, rfl⟩
    have hdrop : (dirPath ++ [47] ++ name).drop (dirPath.length + 1) = name := by
      have : (dirPath ++ [47]).length = dirPath.length + 1 := by simp
      rw [← this, List.drop_left]
    have hpre : (dirPath ++ [47]).isPrefixOf (dirPath ++ [47] ++ name) = true :=
      List.isPrefixOf_iff_prefix.mpr (List.prefix_append _ _)
    have hc : name.contains 47 = false := by simpa using hslash
    rw [if_pos hpre, hdrop, hc]
    cases name with
    | nil => exact absurd rfl hne
    | cons a t => rfl

/-- C6 (counterexample): the listing of `/d` from the empty start name passes
to the callback the entry stored at `/d` itself, the siblings `/d.bak` and
`/d2`, and the deeper descendant `/d/sub/z`; none of these keys is `/d/name`
for a non-empty name without a slash. -/
theorem list_delivers_non_children :
    (deliveredOf (ListDirectoryEntries sampleCodec none treeStore [47, 100] [] true 10
        acceptAll ())).map (fun e => e.FullPath)
      = [[47, 100], [47, 100, 46, 98, 97, 107], [47, 100, 47, 115, 117, 98, 47, 122],
         [47, 100, 47, 120], [47, 100, 47, 121], [47, 100, 50]] ∧
    (¬ ∃ name : Bytes, name ≠ [] ∧ (47 : Byte) ∉ name ∧
      ([47, 100] : Bytes) = [47, 100] ++ [47] ++ name) ∧
    (¬ ∃ name : Bytes, name ≠ [] ∧ (47 : Byte) ∉ name ∧
      ([47, 100, 46, 98, 97, 107] : Bytes) = [47, 100] ++ [47] ++ name) ∧
    (¬ ∃ name : Bytes, name ≠ [] ∧ (47 : Byte) ∉ name ∧
      ([47, 100, 47, 115, 117, 98, 47, 122] : Bytes) = [47, 100] ++ [47] ++ name) ∧
    (¬ ∃ name : Bytes, name ≠ [] ∧ (47 : Byte) ∉ name ∧
      ([47, 100, 50] : Bytes) = [47, 100] ++ [47] ++ name) := by
  refine ⟨by decide, ?_, ?_, ?_, ?_⟩ <;>
    (rw [← isDirectChild_iff]; decide)

/-! ## Listing from a stored start name -/

theorem childName_child (dirPath name : Bytes) (h : (47 : Byte) ∉ name) :
    childName dirPath (dirPath ++ [47] ++ name) = some name := by
  have hdrop : (dirPath ++ [47] ++ name).drop (dirPath.length + 1) = name := by
    have : (dirPath ++ [47]).length = dirPath.length + 1 := by simp
    rw [← this, List.drop_left]
  have hpre : (dirPath ++ [47]).isPrefixOf (dirPath ++ [47] ++ name) = true :=
    List.isPrefixOf_iff_prefix.mpr (List.prefix_append _ _)
  have hc : name.contains 47 = false := by simpa using h
  unfold childName
  rw [if_pos hpre, hdrop, hc]
  rfl

theorem childName_eq_some (dirPath key name : Bytes) (h : childName dirPath key = some name) :
    key = dirPath ++ [47] ++ name ∧ (47 : Byte) ∉ name := by
  unfold childName at h
  by_cases h1 : (dirPath ++ [47]).isPrefixOf key = true
  · rw [if_pos h1] at h
    obtain ⟨t, ht⟩ := List.isPrefixOf_iff_prefix.mp h1
    have hdrop : key.drop (dirPath.length + 1) = t := by
      rw [← ht]
      have : (dirPath ++ [47]).length = dirPath.length + 1 := by simp
      rw [← this, List.drop_left]
    rw [hdrop] at h
    by_cases h2 : t.contains 47 = true
    · rw [if_pos h2] at h
      exact absurd h (by simp)
    · rw [if_neg h2] at h
      simp only [Option.some.injEq] at h
      subst h
      exact ⟨ht.symm, by simpa using h2⟩
  · rw [if_neg h1] at h
    exact absurd h (by simp)

theorem takeWhile_append_stop {α : Type} (p : α → Bool) (l : List α) (a : α) (r : List α)
    (hl : ∀ x ∈ l, p x = true) (ha : p a = false) : (l ++ a :: r).takeWhile p = l := by
  induction l with
  | nil => simp [List.takeWhile, ha]
  | cons x xs ih =>
    have hx : p x = true := hl x (List.mem_cons_self _ _)
    rw [List.cons_append, List.takeWhile_cons, hx, if_pos rfl,
      ih (fun y hy => hl y (List.mem_cons_of_mem _ hy))]

theorem Name_child (dirPath name : Bytes) (h : (47 : Byte) ∉ name) :
    Name (dirPath ++ [47] ++ name) = name := by
  unfold Name
  have hrev : (dirPath ++ [47] ++ name).reverse = name.reverse ++ 47 :: dirPath.reverse := by
    simp
  rw [hrev, takeWhile_append_stop _ _ _ _ _ (by simp), List.reverse_reverse]
  intro x hx
  have hx1 : x ∈ name := List.mem_reverse.mp hx
  have : x ≠ 47 := fun hxe => h (hxe ▸ hx1)
  simpa using this

theorem scanLoop_continue {σ A C : Type} (codec : Codec A C)
    (eachEntryFunc : σ → Entry A C → σ × Bool)
    (hcb : ∀ st e, (eachEntryFunc st e).2 = true) (l : List (Bytes × Bytes))
    (hdec : ∀ kv ∈ l, (decodeKV codec kv).isOk = true) (last : Bytes) (st : σ) :
    (scanLoop codec eachEntryFunc l last st).err = none ∧
    (scanLoop codec eachEntryFunc l last st).delivered.map Except.ok
      = l.map (decodeKV codec) ∧
    (scanLoop codec eachEntryFunc l last st).delivered.map (fun e => e.FullPath)
      = l.map Prod.fst := by
  induction l generalizing last st with
  | nil => simp [scanLoop]
  | cons kv rest ih =>
    have hkv := hdec kv (List.mem_cons_self _ _)
    have hrest : ∀ x ∈ rest, (decodeKV codec x).isOk = true :=
      fun x hx => hdec x (List.mem_cons_of_mem _ hx)
    simp only [scanLoop]
    cases hd : codec.DecodeAttributesAndChunks (codec.MaybeDecompressData kv.2) with
    | error err => simp [decodeKV, hd, Except.isOk, Except.toBool] at hkv
    | ok ac =>
      obtain ⟨a, c⟩ := ac
      simp only [hcb, if_true]
      obtain ⟨h1, h2, h3⟩ := ih hrest kv.1 (eachEntryFunc st ⟨kv.1, a, c⟩).1
      refine ⟨h1, ?_, ?_⟩
      · simp only [List.map_cons, h2]
        simp [decodeKV, hd]
      · simp only [List.map_cons, h3]

theorem filter_from_stored (l : List (Bytes × Bytes))
    (hs : l.Pairwise (fun a b => keyLt a.1 b.1 = true)) (k0 v0 : Bytes) (hmem : (k0, v0) ∈ l)
    (Q : Bytes → Bool) (hQ : Q k0 = true) :
    l.filter (fun kv => keyLe k0 kv.1 && Q kv.1)
      = (k0, v0) :: l.filter (fun kv => keyLt k0 kv.1 && Q kv.1) := by
  induction l with
  | nil => simp at hmem
  | cons x xs ih =>
    rw [List.pairwise_cons] at hs
    rcases List.mem_cons.mp hmem with hx | hx
    · subst hx
      have hsame : xs.filter (fun kv => keyLe k0 kv.1 && Q kv.1)
          = xs.filter (fun kv => keyLt k0 kv.1 && Q kv.1) := by
        apply List.filter_congr
        intro y hy
        have hlt : keyLt k0 y.1 = true := hs.1 y hy
        simp [keyLe, keyLt_asymm _ _ hlt, hlt]
      simp [List.filter_cons, keyLe_refl, hQ, keyLt_irrefl, hsame]
    · have hlt : keyLt x.1 k0 = true := hs.1 (k0, v0) hx
      have h1 : keyLe k0 x.1 = false := by simp [keyLe, hlt]
      have h2 : keyLt k0 x.1 = false := keyLt_asymm _ _ hlt
      simp [List.filter_cons, h1, h2, ih hs.2 hx]

theorem mem_of_get_ne_none (db : Database) (key : Bytes) (h : db.get key ≠ none) :
    ∃ v, (key, v) ∈ db.kvs := by
  unfold Database.get at h
  cases hf : db.kvs.find? (fun kv => kv.1 == key) with
  | none => simp [hf] at h
  | some kv =>
    have h1 := List.find?_some hf
    have h2 := List.mem_of_find?_eq_some hf
    simp only [beq_iff_eq] at h1
    exact ⟨kv.2, by rw [← h1]; exact h2⟩

theorem wrapInt64_succ (limit : Int) (h1 : 1 ≤ limit) (h2 : limit < 2 ^ 63 - 1) :
    wrapInt64 (limit + 1) = limit + 1 := by
  unfold wrapInt64
  norm_num at h2 ⊢
  omega

theorem succeeded_listPrefixed {σ A C : Type} (codec : Codec A C)
    (store : FoundationDB) (dirPath startFileName : Bytes) (includeStartFile : Bool)
    (limit : Int) (namePfx : Bytes) (eachEntryFunc : σ → Entry A C → σ × Bool) (st : σ) :
    succeeded (ListDirectoryPrefixedEntries codec none store dirPath startFileName
      includeStartFile limit namePfx eachEntryFunc st)
    = (scanLoop codec eachEntryFunc
        ((scannedRows store dirPath startFileName includeStartFile limit).drop
          (if includeStartFile then 0 else 1)) [] st).err.isNone := by
  cases includeStartFile
  · simp only [ListDirectoryPrefixedEntries, transactGetRange, scannedRows, Bool.not_false,
      if_true, Bool.false_eq_true, if_false]
    split_ifs with hlen
    · rw [List.length_eq_zero.mp hlen]
      simp [scanLoop, succeeded]
    · split <;> simp_all [succeeded]
  · simp only [ListDirectoryPrefixedEntries, transactGetRange, scannedRows, Bool.not_true,
      if_true, Bool.false_eq_true, if_false]
    split_ifs with hlen
    · rw [List.length_eq_zero.mp hlen]
      simp [scanLoop, succeeded]
    · split <;> simp_all [succeeded]

theorem keyLt_child_hi (dirPath name : Bytes) :
    keyLt (dirPath ++ [47] ++ name) (dirPath ++ [255]) = true := by
  rw [List.append_assoc, keyLt_append_left]
  rfl

theorem keyLe_of_keyLt (a b : Bytes) (h : keyLt a b = true) : keyLe a b = true := by
  simp [keyLe, keyLt_asymm a b h]

theorem keyLe_firstEntry_child (dirPath s : Bytes) :
    keyLe (firstEntry dirPath s) (dirPath ++ [47] ++ s) = true := by
  unfold firstEntry
  split_ifs with h
  · exact keyLe_refl _
  · rw [List.append_assoc]
    exact keyLe_append_right _ _

theorem contains_child (dirPath s name : Bytes) :
    (listRange dirPath s).contains (dirPath ++ [47] ++ name) = keyLe s name := by
  simp only [KeyRange.contains, listRange, keyLt_child_hi, Bool.and_true]
  unfold firstEntry
  split_ifs with h
  · exact keyLe_append_left _ _ _
  · have hs : s = [] := by simpa using h
    subst hs
    rw [List.append_assoc, keyLe_append_right, keyLe_nil]

theorem contains_of_above_child (dirPath s k : Bytes)
    (h1 : keyLe (dirPath ++ [47] ++ s) k = true) (h2 : keyLt k (dirPath ++ [255]) = true) :
    (listRange dirPath s).contains k = true := by
  simp only [KeyRange.contains, listRange, Bool.and_eq_true]
  exact ⟨keyLe_trans _ _ _ (keyLe_firstEntry_child dirPath s) h1, h2⟩

theorem contains_eq_childGE (dirPath s k : Bytes)
    (hch : (listRange dirPath s).contains k = true → (childName dirPath k).isSome = true) :
    (listRange dirPath s).contains k
      = isChildWith (fun n => if true then keyLe s n else keyLt s n) dirPath k := by
  unfold isChildWith
  cases hc : childName dirPath k with
  | some name =>
    obtain ⟨hk, _⟩ := childName_eq_some dirPath k name hc
    rw [hk, contains_child]
    rfl
  | none =>
    cases hr : (listRange dirPath s).contains k with
    | false => rfl
    | true =>
      have := hch hr
      simp [hc] at this

theorem contains_eq_above (dirPath s k : Bytes)
    (hch : (listRange dirPath s).contains k = true → (childName dirPath k).isSome = true) :
    (listRange dirPath s).contains k
      = (keyLe (dirPath ++ [47] ++ s) k && keyLt k (dirPath ++ [255])) := by
  cases hc : childName dirPath k with
  | some name =>
    obtain ⟨hk, _⟩ := childName_eq_some dirPath k name hc
    rw [hk, contains_child, keyLt_child_hi, Bool.and_true]
    exact (keyLe_append_left (dirPath ++ [47]) s name).symm
  | none =>
    cases hr : (listRange dirPath s).contains k with
    | true =>
      have := hch hr
      simp [hc] at this
    | false =>
      cases h1 : keyLe (dirPath ++ [47] ++ s) k with
      | false => rfl
      | true =>
        cases h2 : keyLt k (dirPath ++ [255]) with
        | false => rfl
        | true =>
          have := contains_of_above_child dirPath s k h1 h2
          rw [hr] at this
          exact this

theorem above_eq_childGT (dirPath s k : Bytes)
    (hch : (listRange dirPath s).contains k = true → (childName dirPath k).isSome = true) :
    (keyLt (dirPath ++ [47] ++ s) k && keyLt k (dirPath ++ [255]))
      = isChildWith (fun n => if false then keyLe s n else keyLt s n) dirPath k := by
  unfold isChildWith
  cases hc : childName dirPath k with
  | some name =>
    obtain ⟨hk, _⟩ := childName_eq_some dirPath k name hc
    rw [hk, keyLt_child_hi, Bool.and_true]
    exact keyLt_append_left (dirPath ++ [47]) s name
  | none =>
    cases h1 : keyLt (dirPath ++ [47] ++ s) k with
    | false => rfl
    | true =>
      cases h2 : keyLt k (dirPath ++ [255]) with
      | false => rfl
      | true =>
        have := hch (contains_of_above_child dirPath s k (keyLe_of_keyLt _ _ h1) h2)
        simp [hc] at this

theorem names_ascending (dirPath : Bytes) (K : List Bytes)
    (hK : K.Pairwise (fun a b => keyLt a b = true))
    (hch : ∀ k ∈ K, (childName dirPath k).isSome = true) :
    K.Pairwise (fun a b => keyLt (Name a) (Name b) = true) := by
  refine List.Pairwise.imp_of_mem ?_ hK
  intro a b ha hb hab
  obtain ⟨na, hna⟩ := Option.isSome_iff_exists.mp (hch a ha)
  obtain ⟨nb, hnb⟩ := Option.isSome_iff_exists.mp (hch b hb)
  obtain ⟨ha1, ha2⟩ := childName_eq_some dirPath a na hna
  obtain ⟨hb1, hb2⟩ := childName_eq_some dirPath b nb hnb
  rw [ha1, hb1, Name_child _ _ ha2, Name_child _ _ hb2]
  rw [ha1, hb1, keyLt_append_left] at hab
  exact hab

theorem list_accepting {σ A C : Type} (codec : Codec A C) (store : FoundationDB)
    (dirPath s : Bytes) (includeStartFile : Bool) (limit : Int)
    (eachEntryFunc : σ → Entry A C → σ × Bool) (st : σ)
    (hcb : ∀ st e, (eachEntryFunc st e).2 = true)
    (hdec : ∀ kv ∈ store.db.kvs, (listRange dirPath s).contains kv.1 = true →
      (decodeKV codec kv).isOk = true) :
    succeeded (ListDirectoryEntries codec none store dirPath s includeStartFile limit
      eachEntryFunc st) = true ∧
    (deliveredOf (ListDirectoryEntries codec none store dirPath s includeStartFile limit
      eachEntryFunc st)).map Except.ok
      = (((scannedRows store dirPath s includeStartFile limit).drop
          (if includeStartFile then 0 else 1)).map (decodeKV codec)) ∧
    (deliveredOf (ListDirectoryEntries codec none store dirPath s includeStartFile limit
      eachEntryFunc st)).map (fun e => e.FullPath)
      = (((scannedRows store dirPath s includeStartFile limit).drop
          (if includeStartFile then 0 else 1)).map Prod.fst) := by
  have hrows : ∀ kv ∈ (scannedRows store dirPath s includeStartFile limit).drop
      (if includeStartFile then 0 else 1), (decodeKV codec kv).isOk = true := by
    intro kv hkv
    have := mem_getRange _ _ _ _ (List.mem_of_mem_drop hkv)
    exact hdec kv this.1 this.2
  obtain ⟨h1, h2, h3⟩ := scanLoop_continue codec eachEntryFunc hcb _ hrows [] st
  unfold ListDirectoryEntries
  rw [succeeded_listPrefixed, deliveredOf_listPrefixed, h1]
  exact ⟨rfl, h2, h3⟩

theorem scannedRows_inclusive (store : FoundationDB) (dirPath s : Bytes) (limit : Int)
    (h1 : 1 ≤ limit) :
    scannedRows store dirPath s true limit
      = (store.db.kvs.filter (fun kv => (listRange dirPath s).contains kv.1)).take
          limit.toNat := by
  have : limit > 0 := by omega
  simp [scannedRows, Database.getRange, this]

theorem scannedRows_exclusive (store : FoundationDB) (dirPath s : Bytes) (limit : Int)
    (h1 : 1 ≤ limit) (h2 : limit < 2 ^ 63 - 1) :
    scannedRows store dirPath s false limit
      = (store.db.kvs.filter (fun kv => (listRange dirPath s).contains kv.1)).take
          (limit.toNat + 1) := by
  have hpos : limit + 1 > 0 := by omega
  have hnat : (limit + 1).toNat = limit.toNat + 1 := by omega
  simp [scannedRows, Database.getRange, wrapInt64_succ limit h1 h2, hpos, hnat]

theorem rows_from_stored (store : FoundationDB) (dirPath s : Bytes)
    (hwf : store.db.WF)
    (hch : ∀ kv ∈ store.db.kvs, (listRange dirPath s).contains kv.1 = true →
      (childName dirPath kv.1).isSome = true)
    (v0 : Bytes) (hmem : (dirPath ++ [47] ++ s, v0) ∈ store.db.kvs) :
    store.db.kvs.filter (fun kv => (listRange dirPath s).contains kv.1)
        = (dirPath ++ [47] ++ s, v0) :: childrenFrom store dirPath s false ∧
    childrenFrom store dirPath s true
        = (dirPath ++ [47] ++ s, v0) :: childrenFrom store dirPath s false := by
  have hge : childrenFrom store dirPath s true
      = store.db.kvs.filter (fun kv => (listRange dirPath s).contains kv.1) := by
    unfold childrenFrom
    apply List.filter_congr
    intro kv hkv
    exact (contains_eq_childGE dirPath s kv.1 (hch kv hkv)).symm
  have hgt : childrenFrom store dirPath s false
      = store.db.kvs.filter
          (fun kv => keyLt (dirPath ++ [47] ++ s) kv.1 && keyLt kv.1 (dirPath ++ [255])) := by
    unfold childrenFrom
    apply List.filter_congr
    intro kv hkv
    exact (above_eq_childGT dirPath s kv.1 (hch kv hkv)).symm
  have hrows : store.db.kvs.filter (fun kv => (listRange dirPath s).contains kv.1)
      = store.db.kvs.filter
          (fun kv => keyLe (dirPath ++ [47] ++ s) kv.1 && keyLt kv.1 (dirPath ++ [255])) := by
    apply List.filter_congr
    intro kv hkv
    exact contains_eq_above dirPath s kv.1 (hch kv hkv)
  have hsplit := filter_from_stored store.db.kvs hwf (dirPath ++ [47] ++ s) v0 hmem
    (fun k => keyLt k (dirPath ++ [255])) (keyLt_child_hi dirPath s)
  rw [hge, hrows, hgt]
  exact ⟨hsplit, hsplit⟩

theorem rows_keys_ascending (store : FoundationDB) (dirPath s : Bytes) (hwf : store.db.WF)
    (hch : ∀ kv ∈ store.db.kvs, (listRange dirPath s).contains kv.1 = true →
      (childName dirPath kv.1).isSome = true)
    (rows : List (Bytes × Bytes))
    (hsub : rows.Sublist
      (store.db.kvs.filter (fun kv => (listRange dirPath s).contains kv.1))) :
    (rows.map Prod.fst).Pairwise (fun a b => keyLt (Name a) (Name b) = true) := by
  apply names_ascending dirPath
  · rw [List.pairwise_map]
    exact (hwf.sublist (List.filter_sublist _)).sublist hsub
  · intro k hk
    obtain ⟨kv, hkv, rfl⟩ := List.mem_map.mp hk
    have := List.mem_filter.mp (hsub.subset hkv)
    exact hch kv this.1 (by simpa using this.2)

/-- C3: in a store whose keys in the scan range are direct children of
`dirPath` with decodable values, for a stored child name `s`, a limit with
`1 <= limit < 2^63 - 1` and a callback that always continues:
`ListDirectoryEntries` with the start file included returns without error and
delivers the first `min limit count` stored children whose name is at or after
`s`, the first being `s` itself, in ascending name order; with the start file
excluded it delivers the first `min limit count` stored children whose name is
strictly after `s`, in ascending name order.  (That the names hold no 0xFF byte
is not needed.) -/
theorem list_from_stored_start {σ A C : Type} (codec : Codec A C) (store : FoundationDB)
    (dirPath s : Bytes) (limit : Int) (eachEntryFunc : σ → Entry A C → σ × Bool) (st : σ)
    (hwf : store.db.WF)
    (hch : ∀ kv ∈ store.db.kvs, (listRange dirPath s).contains kv.1 = true →
      (childName dirPath kv.1).isSome = true)
    (hdec : ∀ kv ∈ store.db.kvs, (listRange dirPath s).contains kv.1 = true →
      (decodeKV codec kv).isOk = true)
    (hstored : store.db.get (dirPath ++ [47] ++ s) ≠ none)
    (hlimit : 1 ≤ limit ∧ limit < 2 ^ 63 - 1)
    (hcb : ∀ st e, (eachEntryFunc st e).2 = true) :
    (succeeded (ListDirectoryEntries codec none store dirPath s true limit eachEntryFunc st)
        = true ∧
      (deliveredOf (ListDirectoryEntries codec none store dirPath s true limit
          eachEntryFunc st)).map Except.ok
        = ((childrenFrom store dirPath s true).take limit.toNat).map (decodeKV codec) ∧
      (deliveredOf (ListDirectoryEntries codec none store dirPath s true limit
          eachEntryFunc st)).length
        = min limit.toNat (childrenFrom store dirPath s true).length ∧
      ((deliveredOf (ListDirectoryEntries codec none store dirPath s true limit
          eachEntryFunc st)).map (fun e => e.FullPath)).head? = some (dirPath ++ [47] ++ s) ∧
      ((deliveredOf (ListDirectoryEntries codec none store dirPath s true limit
          eachEntryFunc st)).map (fun e => e.FullPath)).Pairwise
        (fun a b => keyLt (Name a) (Name b) = true)) ∧
    (succeeded (ListDirectoryEntries codec none store dirPath s false limit eachEntryFunc st)
        = true ∧
      (deliveredOf (ListDirectoryEntries codec none store dirPath s false limit
          eachEntryFunc st)).map Except.ok
        = ((childrenFrom store dirPath s false).take limit.toNat).map (decodeKV codec) ∧
      (deliveredOf (ListDirectoryEntries codec none store dirPath s false limit
          eachEntryFunc st)).length
        = min limit.toNat (childrenFrom store dirPath s false).length ∧
      ((deliveredOf (ListDirectoryEntries codec none store dirPath s false limit
          eachEntryFunc st)).map (fun e => e.FullPath)).Pairwise
        (fun a b => keyLt (Name a) (Name b) = true)) := by
  obtain ⟨v0, hmem⟩ := mem_of_get_ne_none store.db _ hstored
  obtain ⟨hrows, hge⟩ := rows_from_stored store dirPath s hwf hch v0 hmem
  obtain ⟨n, hn⟩ : ∃ n : Nat, limit.toNat = n + 1 := ⟨limit.toNat - 1, by omega⟩
  constructor
  · obtain ⟨h1, h2, h3⟩ := list_accepting codec store dirPath s true limit eachEntryFunc st
      hcb hdec
    rw [scannedRows_inclusive store dirPath s limit hlimit.1] at h2 h3
    simp only [if_true, List.drop_zero] at h2 h3
    have hlen := congrArg List.length h2
    simp only [List.length_map, List.length_take] at hlen
    refine ⟨h1, ?_, ?_, ?_, ?_⟩
    · rw [h2, hge, hrows]
    · rw [hlen, hge, hrows]
    · rw [h3, hrows, hn]
      rfl
    · rw [h3]
      exact rows_keys_ascending store dirPath s hwf hch _ (List.take_sublist _ _)
  · obtain ⟨h1, h2, h3⟩ := list_accepting codec store dirPath s false limit eachEntryFunc st
      hcb hdec
    rw [scannedRows_exclusive store dirPath s limit hlimit.1 hlimit.2, hrows] at h2 h3
    simp only [Bool.false_eq_true, if_false, List.take_succ_cons, List.drop_succ_cons,
      List.drop_zero] at h2 h3
    have hlen := congrArg List.length h2
    simp only [List.length_map, List.length_take] at hlen
    refine ⟨h1, h2, hlen, ?_⟩
    rw [h3]
    refine rows_keys_ascending store dirPath s hwf hch _ ?_
    rw [hrows]
    exact (List.take_sublist _ _).trans (List.sublist_cons_self _ _)

theorem list_from_stored_start_witness :
    abcStore.db.get ([47, 100] ++ [47] ++ [97]) ≠ none ∧
    (deliveredOf (ListDirectoryEntries sampleCodec none abcStore [47, 100] [97] true 2
        acceptAll ())).map Except.ok
      = ((childrenFrom abcStore [47, 100] [97] true).take (2 : Int).toNat).map
          (decodeKV sampleCodec) ∧
    (deliveredOf (ListDirectoryEntries sampleCodec none abcStore [47, 100] [97] false 2
        acceptAll ())).map Except.ok
      = ((childrenFrom abcStore [47, 100] [97] false).take (2 : Int).toNat).map
          (decodeKV sampleCodec) ∧
    (deliveredOf (ListDirectoryEntries sampleCodec none abcStore [47, 100] [97] true 2
        acceptAll ())).map (fun e => Name e.FullPath) = [[97], [98]] ∧
    (deliveredOf (ListDirectoryEntries sampleCodec none abcStore [47, 100] [97] false 2
        acceptAll ())).map (fun e => Name e.FullPath) = [[98], [99]] :=
  have h := list_from_stored_start sampleCodec abcStore [47, 100] [97] 2 acceptAll ()
    (by unfold Database.WF; decide) (by decide) (by decide) (by decide) (by decide)
    (fun _ _ => rfl)
  ⟨by decide, h.1.2.1, h.2.2.1, by decide, by decide⟩

/-! ## The engine's invariant is kept by every write -/

theorem mem_insertKV (key value : Bytes) (l : List (Bytes × Bytes)) (x : Bytes × Bytes)
    (hx : x ∈ insertKV key value l) : x = (key, value) ∨ x ∈ l := by
  induction l with
  | nil => simpa [insertKV] using hx
  | cons kv rest ih =>
    simp only [insertKV] at hx
    split_ifs at hx with h1 h2
    · rcases List.mem_cons.mp hx with h | h
      · exact Or.inl h
      · exact Or.inr h
    · rcases List.mem_cons.mp hx with h | h
      · exact Or.inl h
      · exact Or.inr (List.mem_cons_of_mem _ h)
    · rcases List.mem_cons.mp hx with h | h
      · exact Or.inr (h ▸ List.mem_cons_self _ _)
      · rcases ih h with h | h
        · exact Or.inl h
        · exact Or.inr (List.mem_cons_of_mem _ h)

theorem insertKV_pairwise (key value : Bytes) (l : List (Bytes × Bytes))
    (hs : l.Pairwise (fun a b => keyLt a.1 b.1 = true)) :
    (insertKV key value l).Pairwise (fun a b => keyLt a.1 b.1 = true) := by
  induction l with
  | nil => simp [insertKV]
  | cons kv rest ih =>
    rw [List.pairwise_cons] at hs
    simp only [insertKV]
    split_ifs with h1 h2
    · refine List.pairwise_cons.mpr ⟨?_, List.pairwise_cons.mpr hs⟩
      intro y hy
      rcases List.mem_cons.mp hy with rfl | hy
      · exact h1
      · exact keyLt_trans _ _ _ h1 (hs.1 y hy)
    · refine List.pairwise_cons.mpr ⟨?_, hs.2⟩
      intro y hy
      have := hs.1 y hy
      rwa [h2] at this
    · refine List.pairwise_cons.mpr ⟨?_, ih hs.2⟩
      intro y hy
      rcases mem_insertKV key value rest y hy with rfl | hy
      · exact keyLt_total key kv.1 (by simpa using h1) (fun h => h2 h.symm)
      · exact hs.1 y hy

theorem set_WF (db : Database) (key value : Bytes) (h : db.WF) : (db.set key value).WF :=
  insertKV_pairwise key value db.kvs h

theorem clear_WF (db : Database) (key : Bytes) (h : db.WF) : (db.clear key).WF :=
  List.Pairwise.filter _ h

theorem clearRange_WF (db : Database) (r : KeyRange) (h : db.WF) : (db.clearRange r).WF :=
  List.Pairwise.filter _ h

/-- Every write of the store keeps the keys strictly ascending, whatever the
engine's outcome. -/
theorem writes_keep_WF {A C : Type} (codec : Codec A C) (fault : Option Fault)
    (store : FoundationDB) (h : store.db.WF) (entry : Entry A C) (key value : Bytes) :
    (InsertEntry codec fault store entry).1.db.WF ∧
    (UpdateEntry codec fault store entry).1.db.WF ∧
    (DeleteEntry fault store key).1.db.WF ∧
    (DeleteFolderChildren fault store key).1.db.WF ∧
    (KvPut fault store key value).1.db.WF ∧
    (KvDelete fault store key).1.db.WF := by
  have hput : ∀ k v, (putKV fault store k v).1.db.WF := by
    intro k v
    cases fault with
    | none => exact set_WF _ _ _ h
    | some f => exact h
  have hdel : ∀ k, (deleteKV fault store k).1.db.WF := by
    intro k
    cases fault with
    | none => exact clear_WF _ _ h
    | some f => exact h
  have hins : (InsertEntry codec fault store entry).1.db.WF := by
    unfold InsertEntry
    cases codec.EncodeAttributesAndChunks entry.Attr entry.Chunks with
    | error err => exact h
    | ok meta =>
      simp only
      have := hput entry.FullPath
        (if entry.Chunks.length > 50 then codec.MaybeGzipData meta else meta)
      revert this
      generalize putKV fault store entry.FullPath
        (if entry.Chunks.length > 50 then codec.MaybeGzipData meta else meta) = r
      obtain ⟨s1, e1⟩ := r
      cases e1 <;> exact fun hh => hh
  refine ⟨hins, hins, ?_, ?_, ?_, ?_⟩
  · unfold DeleteEntry
    have := hdel key
    revert this
    generalize deleteKV fault store key = r
    obtain ⟨s1, e1⟩ := r
    cases e1 <;> exact fun hh => hh
  · unfold DeleteFolderChildren
    cases PrefixRange key with
    | error err => exact h
    | ok range =>
      cases fault with
      | none => exact clearRange_WF _ _ h
      | some f => exact h
  · unfold KvPut
    have := hput key value
    revert this
    generalize putKV fault store key value = r
    obtain ⟨s1, e1⟩ := r
    cases e1 <;> exact fun hh => hh
  · unfold KvDelete
    have := hdel key
    revert this
    generalize deleteKV fault store key = r
    obtain ⟨s1, e1⟩ := r
    cases e1 <;> exact fun hh => hh

/-- A put leaves the value of every other key unchanged. -/
theorem get_set_other (db : Database) (key value other : Bytes) (h : other ≠ key) :
    (db.set key value).get other = db.get other := by
  simp only [Database.get, Database.set]
  congr 1
  induction db.kvs with
  | nil =>
    simp only [insertKV]
    rw [List.find?_cons_of_neg _ (by simpa using fun hh => h hh.symm)]
  | cons kv rest ih =>
    simp only [insertKV]
    split_ifs with h1 h2
    · rw [List.find?_cons_of_neg _ (by simpa using fun hh => h hh.symm)]
    · rw [List.find?_cons_of_neg _ (by simpa using fun hh => h hh.symm),
        List.find?_cons_of_neg _ (by simpa [h2] using fun hh => h hh.symm)]
    · by_cases hk : kv.1 = other
      · simp [List.find?_cons, hk]
      · rw [List.find?_cons_of_neg _ (by simpa using hk),
          List.find?_cons_of_neg _ (by simpa using hk)]
        exact ih

/-! ## The exclusive listing when the start key is stored -/

/-- With a non-empty start name whose key is stored, the start file excluded,
decodable values and a callback that always continues, the listing delivers
the first `limit` keys of the scan range that are strictly greater than the
start key: the row it drops is the start key. -/
theorem list_exclusive_when_start_stored {σ A C : Type} (codec : Codec A C)
    (store : FoundationDB) (dirPath s : Bytes) (limit : Int)
    (eachEntryFunc : σ → Entry A C → σ × Bool) (st : σ)
    (hwf : store.db.WF) (hs : s ≠ [])
    (hdec : ∀ kv ∈ store.db.kvs, (listRange dirPath s).contains kv.1 = true →
      (decodeKV codec kv).isOk = true)
    (hstored : store.db.get (dirPath ++ [47] ++ s) ≠ none)
    (hlimit : 1 ≤ limit ∧ limit < 2 ^ 63 - 1)
    (hcb : ∀ st e, (eachEntryFunc st e).2 = true) :
    (deliveredOf (ListDirectoryEntries codec none store dirPath s false limit
        eachEntryFunc st)).map (fun e => e.FullPath)
      = ((store.db.kvs.filter (fun kv => keyLt (dirPath ++ [47] ++ s) kv.1 &&
            keyLt kv.1 (dirPath ++ [255]))).take limit.toNat).map Prod.fst := by
  obtain ⟨v0, hmem⟩ := mem_of_get_ne_none store.db _ hstored
  have hrows : store.db.kvs.filter (fun kv => (listRange dirPath s).contains kv.1)
      = (dirPath ++ [47] ++ s, v0) :: store.db.kvs.filter
          (fun kv => keyLt (dirPath ++ [47] ++ s) kv.1 && keyLt kv.1 (dirPath ++ [255])) := by
    have hsplit := filter_from_stored store.db.kvs hwf (dirPath ++ [47] ++ s) v0 hmem
      (fun k => keyLt k (dirPath ++ [255])) (keyLt_child_hi dirPath s)
    rw [← hsplit]
    apply List.filter_congr
    intro kv _
    simp [KeyRange.contains, listRange, firstEntry, hs]
  obtain ⟨_, _, h3⟩ := list_accepting codec store dirPath s false limit eachEntryFunc st
    hcb hdec
  rw [scannedRows_exclusive store dirPath s limit hlimit.1 hlimit.2, hrows] at h3
  simpa using h3

end FdbStore
